import Mathlib

/-!
Shallow embedding of `src/app.py` (a single-choice poll web app): the vote
ledger (two SQL tables) and the tally engine, plus the `/vote` route handler.

Modelling conventions:
* A database state is the contents of the two tables created by `init_db`:
  `votes (party, ip_address)` and `voters (ip_address PRIMARY KEY)`.
  Timestamp columns are filled by SQL defaults and never read by any code
  path, so they are omitted from the state.
* Every `execute_query` call in the source opens its own connection and
  commits before closing, so each SQL statement is its own transaction and is
  modelled as one atomic state transition.  In particular `cast_vote` issues
  two independent transactions.
* A SELECT statement does not modify the tables, so reads are modelled as
  pure functions of the state.
* An `IntegrityError` raised by the `voters` primary-key constraint (and any
  other raised storage error) is modelled with `Except`.
* Python's `round(x, 1)` on the percentage is modelled on exact rationals
  with round-half-even (Python's rounding rule).  The resulting multiple of
  `0.1` is represented by its integer numerator: the `percentageTenths`
  field holds `round(votes / total * 100, 1) * 10` (e.g. `66.7` ↦ `667`),
  computed exactly with natural division and remainder.
* Python's `sorted(..., key=..., reverse=True)` is a stable descending sort:
  elements with equal keys keep their original relative order.  `sortDesc`
  below is a stable insertion sort implementing exactly that semantics.
* The global constant `PARTIES` is passed explicitly to the functions that
  read it in the source, with `PARTIES` as its concrete value.
-/

namespace VoteApp

/-- The fixed candidate list `PARTIES` (app.py lines 18-24). -/
def PARTIES : List String := [
  "বাংলাদেশ জাতীয়তাবাদী দল - বি.এন.পি",
  "বাংলাদেশ আওয়ামী লীগ",
  "জাতীয় নাগরিক পার্টি - এনসিপি",
  "বাংলাদেশ জামায়াতে ইসলামী",
  "জাতীয় পার্টি"]

/-- Ledger state: the rows of the `votes` table (pairs `(party, ip_address)`,
in insertion order) and of the `voters` table (the `ip_address` primary-key
column). -/
structure DB where
  votes : List (String × String)
  voters : List String
deriving DecidableEq, Repr

/-- The state right after `init_db`: both tables exist and are empty. -/
def emptyDB : DB := ⟨[], []⟩

/-- `has_voted` when the SELECT succeeds: the fetched row is not `None` iff
`ip_address` is present in `voters` (app.py lines 205-211). -/
def has_voted (db : DB) (ip : String) : Bool :=
  db.voters.contains ip

/-- `has_voted` as a function of the outcome of its `execute_query` call
(app.py lines 205-214): a successful query yields `row is not None`; a raised
storage error is caught by the bare `except` branch, which returns `False`. -/
def has_voted_result (q : Except Unit (Option String)) : Bool :=
  match q with
  | Except.ok row => row.isSome
  | Except.error _ => false

/-- `INSERT INTO votes (party, ip_address) VALUES (?, ?)`: one transaction,
always succeeds (no constraint on `votes`), commits immediately. -/
def insertVote (db : DB) (party ip : String) : DB :=
  { db with votes := db.votes ++ [(party, ip)] }

/-- `INSERT INTO voters (ip_address) VALUES (?)`: one transaction; the
primary-key constraint raises `IntegrityError` exactly when `ip` is already
present, and then nothing is committed. -/
def insertVoter (db : DB) (ip : String) : Except Unit DB :=
  if db.voters.contains ip then Except.error ()
  else Except.ok { db with voters := db.voters ++ [ip] }

/-- `cast_vote` (app.py lines 217-223): two separate `execute_query` calls,
each its own committed transaction.  The vote row is committed first; if the
voter-row insert then raises, the exception propagates (`Except.error`) but
the already-committed vote row remains in the state. -/
def cast_vote (db : DB) (party ip : String) : Except Unit Unit × DB :=
  let db1 := insertVote db party ip
  match insertVoter db1 ip with
  | Except.ok db2 => (Except.ok (), db2)
  | Except.error e => (Except.error e, db1)

/-- The distinct responses the `/vote` route can produce (app.py 297-324),
identified by the distinct JSON messages it returns. -/
inductive VoteOutcome where
  | alreadyVoted
  | noParty
  | invalidOption
  | success
  | storageError
deriving DecidableEq, Repr

/-- Body of the `/vote` route (app.py 309-324), parameterised by the boolean
the `has_voted` call returned (`hv`).  Order of checks as in the source:
`has_voted`, then falsy party (`None` or `""`), then membership in the party
list, then `cast_vote`; an exception from `cast_vote` is caught by the
route's `except` branch, which answers with a generic failure message. -/
def voteCore (parties : List String) (db : DB) (party? : Option String)
    (ip : String) (hv : Bool) : VoteOutcome × DB :=
  if hv then (VoteOutcome.alreadyVoted, db)
  else
    match party? with
    | none => (VoteOutcome.noParty, db)
    | some party =>
      if party == "" then (VoteOutcome.noParty, db)
      else if !(parties.contains party) then (VoteOutcome.invalidOption, db)
      else
        match cast_vote db party ip with
        | (Except.ok _, db2) => (VoteOutcome.success, db2)
        | (Except.error _, db2) => (VoteOutcome.storageError, db2)

/-- The `/vote` route with a healthy storage layer: `has_voted` reads the
actual `voters` table. -/
def vote (parties : List String) (db : DB) (party? : Option String)
    (ip : String) : VoteOutcome × DB :=
  voteCore parties db party? ip (has_voted db ip)

/-- The `/vote` route on a request whose `has_voted` SELECT raises a storage
error: the `except` branch inside `has_voted` degrades the failure to
`False`, so the duplicate guard is passed. -/
def vote_degradedRead (parties : List String) (db : DB) (party? : Option String)
    (ip : String) : VoteOutcome × DB :=
  voteCore parties db party? ip (has_voted_result (Except.error ()))

/-- `SELECT COUNT(*) FROM votes WHERE party = ?` (app.py 231-232). -/
def countVotes (db : DB) (party : String) : Nat :=
  (db.votes.filter (fun v => v.1 == party)).length

/-- `get_vote_counts` (app.py 226-243): one `(party, count)` pair per
configured party, in the party-list order (Python dicts preserve insertion
order). -/
def get_vote_counts (parties : List String) (db : DB) : List (String × Nat) :=
  parties.map (fun p => (p, countVotes db p))

/-- `get_total_votes` (app.py 246-255): `SELECT COUNT(*) FROM votes`. -/
def get_total_votes (db : DB) : Nat :=
  db.votes.length

/-- Insert `x` into a descending-by-count list, after every element with a
strictly greater count: the insertion step of a stable descending sort. -/
def insertDesc (x : String × Nat) : List (String × Nat) → List (String × Nat)
  | [] => [x]
  | y :: ys => if x.2 < y.2 then y :: insertDesc x ys else x :: y :: ys

/-- `sorted(vote_counts.items(), key=lambda x: x[1], reverse=True)`
(app.py 261-262): Python's sort is stable, and `reverse=True` keeps the
original relative order of equal keys, so its semantics is exactly the
stable descending insertion sort below. -/
def sortDesc : List (String × Nat) → List (String × Nat)
  | [] => []
  | x :: xs => insertDesc x (sortDesc xs)

/-- Round-half-to-even of the fraction `num / den` to a natural number
(Python's `round` rule, on the exact value), via division with remainder. -/
def roundHalfEven (num den : Nat) : Nat :=
  let q := num / den
  let r := num % den
  if 2 * r < den then q
  else if den < 2 * r then q + 1
  else if q % 2 = 0 then q else q + 1

/-- `round(votes / total_votes * 100, 1) if total_votes > 0 else 0`
(app.py 272), as an integer count of tenths of a percent (`66.7` ↦ `667`). -/
def pct (votes total : Nat) : Nat :=
  if 0 < total then roundHalfEven (votes * 100 * 10) total
  else 0

/-- One element of the list `get_rankings` returns (app.py 268-274).
`percentageTenths` is the `percentage` value scaled by 10 to an integer
(the source's float is the exact multiple of `0.1` it denotes).  The `meme`
field of the source dict is a pure lookup keyed on `rank`
(`RANKING_MEMES.get(i, RANKING_MEMES[5])`), never read by the core logic,
and is omitted. -/
structure RankingEntry where
  rank : Nat
  party : String
  votes : Nat
  percentageTenths : Nat
deriving DecidableEq, Repr

/-- The `for i, (party, votes) in enumerate(sorted_parties, 1)` loop of
`get_rankings` (app.py 267-274). -/
def buildRankings (total : Nat) : Nat → List (String × Nat) → List RankingEntry
  | _, [] => []
  | i, (p, v) :: rest => ⟨i, p, v, pct v total⟩ :: buildRankings total (i + 1) rest

/-- `get_rankings` (app.py 258-276): counts per party, stable descending
sort, ranks assigned 1..N in sorted order, percentages against the total;
returns the rankings together with the total. -/
def get_rankings (parties : List String) (db : DB) : List RankingEntry × Nat :=
  (buildRankings (get_total_votes db) 1 (sortDesc (get_vote_counts parties db)),
   get_total_votes db)

/-- `/api/results` (app.py 344-351): runs `get_rankings` against the current
ledger.  All queries involved are SELECTs, so the ledger passes through
unchanged; the handler is modelled with its post-state made explicit. -/
def api_results (parties : List String) (db : DB) : (List RankingEntry × Nat) × DB :=
  (get_rankings parties db, db)

/-- The result of one interleaving of two concurrent `/vote` requests that
share a client key: both requests evaluate `has_voted` before either writes
(both see `False` when the key is fresh), then their `cast_vote` calls
execute serially against the store. -/
def raceCast (db : DB) (p1 p2 ip : String) : DB :=
  (cast_vote (cast_vote db p1 ip).2 p2 ip).2

/-- Ledger states reachable by sequential (non-overlapping) `/vote` requests
against a healthy store, starting from the freshly initialised database. -/
inductive SeqReachable : DB → Prop where
  | init : SeqReachable emptyDB
  | step (db : DB) (party? : Option String) (ip : String) :
      SeqReachable db → SeqReachable (vote PARTIES db party? ip).2

/-- Ledger states reachable under the concurrency model of the spec (any
number of requests, each SQL statement atomic): sequential `/vote` requests
plus the duplicate-key race interleaving `raceCast` (both racing requests
saw `has_voted = False` and a valid non-empty party, so both reach
`cast_vote`). -/
inductive Reachable : DB → Prop where
  | init : Reachable emptyDB
  | step (db : DB) (party? : Option String) (ip : String) :
      Reachable db → Reachable (vote PARTIES db party? ip).2
  | race (db : DB) (p1 p2 ip : String) :
      Reachable db → has_voted db ip = false →
      PARTIES.contains p1 = true → PARTIES.contains p2 = true →
      p1 ≠ "" → p2 ≠ "" →
      Reachable (raceCast db p1 p2 ip)

/-- `a` occurs (strictly) before `b` in `l`. -/
def Before {α : Type} (a b : α) (l : List α) : Prop :=
  ∃ u v w, l = u ++ a :: v ++ b :: w

/-- The ledger produced by the three accepted example casts of the spec:
options {A, B, C}, casts A, A, B from three distinct voter keys, submitted
through the `/vote` route. -/
def exampleDB : DB :=
  (vote ["A", "B", "C"]
    (vote ["A", "B", "C"]
      (vote ["A", "B", "C"] emptyDB (some "A") "k1").2 (some "A") "k2").2
    (some "B") "k3").2

/-! ### Properties of the stable descending sort -/

theorem insertDesc_perm (x : String × Nat) (l : List (String × Nat)) :
    (insertDesc x l).Perm (x :: l) := by
  induction l with
  | nil => simp [insertDesc]
  | cons y ys ih =>
    by_cases h : x.2 < y.2
    · simpa [insertDesc, h] using (ih.cons y).trans (List.Perm.swap x y ys)
    · simp [insertDesc, h]

theorem sortDesc_perm (l : List (String × Nat)) : (sortDesc l).Perm l := by
  induction l with
  | nil => simp [sortDesc]
  | cons x xs ih =>
    exact (insertDesc_perm x (sortDesc xs)).trans (ih.cons x)

theorem insertDesc_sorted (x : String × Nat) (l : List (String × Nat))
    (h : l.Pairwise (fun a b => b.2 ≤ a.2)) :
    (insertDesc x l).Pairwise (fun a b => b.2 ≤ a.2) := by
  induction l with
  | nil => simp [insertDesc]
  | cons y ys ih =>
    obtain ⟨hy, hys⟩ := List.pairwise_cons.mp h
    by_cases hxy : x.2 < y.2
    · rw [insertDesc, if_pos hxy]
      refine List.pairwise_cons.mpr ⟨?_, ih hys⟩
      intro z hz
      rcases List.mem_cons.mp ((insertDesc_perm x ys).mem_iff.mp hz) with rfl | hzys
      · exact Nat.le_of_lt hxy
      · exact hy z hzys
    · rw [insertDesc, if_neg hxy]
      refine List.pairwise_cons.mpr ⟨?_, h⟩
      intro z hz
      rcases List.mem_cons.mp hz with rfl | hzys
      · exact Nat.le_of_not_lt hxy
      · exact le_trans (hy z hzys) (Nat.le_of_not_lt hxy)

theorem sortDesc_sorted (l : List (String × Nat)) :
    (sortDesc l).Pairwise (fun a b => b.2 ≤ a.2) := by
  induction l with
  | nil => simp [sortDesc]
  | cons x xs ih => exact insertDesc_sorted x (sortDesc xs) ih

theorem sublist_insertDesc (x : String × Nat) (l : List (String × Nat)) :
    List.Sublist l (insertDesc x l) := by
  induction l with
  | nil => simp [insertDesc]
  | cons y ys ih =>
    by_cases h : x.2 < y.2
    · rw [insertDesc, if_pos h]
      exact List.Sublist.cons₂ y ih
    · rw [insertDesc, if_neg h]
      exact List.Sublist.cons x (List.Sublist.refl _)

theorem pair_sublist_insertDesc (x b : String × Nat) (s : List (String × Nat))
    (hs : s.Pairwise (fun a b => b.2 ≤ a.2)) (hb : b ∈ s) (hle : b.2 ≤ x.2) :
    List.Sublist [x, b] (insertDesc x s) := by
  induction s with
  | nil => cases hb
  | cons y ys ih =>
    obtain ⟨hy, hys⟩ := List.pairwise_cons.mp hs
    by_cases h : x.2 < y.2
    · rw [insertDesc, if_pos h]
      have hbys : b ∈ ys := by
        rcases List.mem_cons.mp hb with rfl | hbys
        · exact absurd (lt_of_le_of_lt hle h) (lt_irrefl _)
        · exact hbys
      exact List.Sublist.cons y (ih hys hbys)
    · rw [insertDesc, if_neg h]
      exact List.Sublist.cons₂ x (List.singleton_sublist.mpr hb)

theorem sortDesc_stable_pair (a b : String × Nat) (l : List (String × Nat))
    (h : List.Sublist [a, b] l) (hle : b.2 ≤ a.2) : List.Sublist [a, b] (sortDesc l) := by
  induction l with
  | nil => cases h
  | cons x xs ih =>
    cases h with
    | cons _ h' =>
      exact (ih h').trans (sublist_insertDesc x (sortDesc xs))
    | cons₂ _ h' =>
      have hb : b ∈ sortDesc xs :=
        (sortDesc_perm xs).mem_iff.mpr (List.singleton_sublist.mp h')
      exact pair_sublist_insertDesc a b (sortDesc xs) (sortDesc_sorted xs) hb hle

theorem before_of_pair_sublist {α : Type} {a b : α} {l : List α}
    (h : List.Sublist [a, b] l) : Before a b l := by
  induction l with
  | nil => cases h
  | cons x xs ih =>
    cases h with
    | cons _ h' =>
      obtain ⟨u, v, w, rfl⟩ := ih h'
      exact ⟨x :: u, v, w, rfl⟩
    | cons₂ _ h' =>
      obtain ⟨s, t, rfl⟩ := List.append_of_mem (List.singleton_sublist.mp h')
      exact ⟨[], s, t, rfl⟩

theorem pair_sublist_of_before {α : Type} {a b : α} {l : List α}
    (h : Before a b l) : List.Sublist [a, b] l := by
  obtain ⟨u, v, w, rfl⟩ := h
  have h1 : List.Sublist [a, b] (a :: (v ++ b :: w)) :=
    List.Sublist.cons₂ a (List.singleton_sublist.mpr (by simp))
  simp only [List.append_assoc]
  exact h1.trans (List.sublist_append_right u _)

theorem before_map {α β : Type} (f : α → β) {a b : α} {l : List α}
    (h : Before a b l) : Before (f a) (f b) (l.map f) := by
  obtain ⟨u, v, w, rfl⟩ := h
  exact ⟨u.map f, v.map f, w.map f, by simp⟩

/-! ### Properties of the ranking construction -/

theorem buildRankings_map_pair (total : Nat) (i : Nat) (s : List (String × Nat)) :
    (buildRankings total i s).map (fun e => (e.party, e.votes)) = s := by
  induction s generalizing i with
  | nil => rfl
  | cons y ys ih => cases y with | mk p v => simp [buildRankings, ih]

theorem buildRankings_length (total : Nat) (i : Nat) (s : List (String × Nat)) :
    (buildRankings total i s).length = s.length := by
  have := congrArg List.length (buildRankings_map_pair total i s)
  simpa using this

theorem buildRankings_rank (total : Nat) (s : List (String × Nat)) :
    ∀ (i j : Nat) (h : j < (buildRankings total i s).length),
      ((buildRankings total i s).get ⟨j, h⟩).rank = i + j := by
  induction s with
  | nil => intro i j h; simp [buildRankings] at h
  | cons y ys ih =>
    intro i j h
    cases y with
    | mk p v =>
      cases j with
      | zero => simp [buildRankings]
      | succ j' =>
        have h' : j' < (buildRankings total (i + 1) ys).length := by
          simpa [buildRankings] using h
        have e1 : ((buildRankings total i ((p, v) :: ys)).get ⟨j' + 1, h⟩)
            = (buildRankings total (i + 1) ys).get ⟨j', h'⟩ := by
          simp [buildRankings]
        rw [e1, ih (i + 1) j' h']
        omega

theorem buildRankings_pct (total : Nat) (s : List (String × Nat)) :
    ∀ (i : Nat) (e : RankingEntry), e ∈ buildRankings total i s →
      e.percentageTenths = pct e.votes total := by
  induction s with
  | nil => intro i e he; cases he
  | cons y ys ih =>
    intro i e he
    cases y with
    | mk p v =>
      cases he with
      | head => rfl
      | tail _ he => exact ih (i + 1) e he

/-! ### The rounding rule relates to the exact percentage -/

theorem roundHalfEven_close (num den : Nat) (hden : 0 < den) :
    |(roundHalfEven num den : ℚ) - (num : ℚ) / (den : ℚ)| ≤ 1 / 2 := by
  have hd : (0 : ℚ) < (den : ℚ) := by exact_mod_cast hden
  have hdm : den * (num / den) + num % den = num := Nat.div_add_mod num den
  have hnum : (num : ℚ) / (den : ℚ)
      = ((num / den : Nat) : ℚ) + ((num % den : Nat) : ℚ) / (den : ℚ) := by
    have hq : (num : ℚ)
        = (den : ℚ) * ((num / den : Nat) : ℚ) + ((num % den : Nat) : ℚ) := by
      exact_mod_cast hdm.symm
    rw [hq]
    field_simp
    ring
  have hr1 : ((num % den : Nat) : ℚ) / (den : ℚ) < 1 := by
    rw [div_lt_one hd]
    exact_mod_cast Nat.mod_lt _ hden
  have hr0 : (0 : ℚ) ≤ ((num % den : Nat) : ℚ) / (den : ℚ) := by positivity
  simp only [roundHalfEven]
  split_ifs with h1 h2 h3
  · have hs : ((num % den : Nat) : ℚ) / (den : ℚ) ≤ 1 / 2 := by
      rw [div_le_iff₀ hd]
      have : ((2 * (num % den) : Nat) : ℚ) ≤ ((den : Nat) : ℚ) := by
        exact_mod_cast Nat.le_of_lt h1
      push_cast at this ⊢
      linarith
    rw [hnum, show ((num / den : Nat) : ℚ)
        - (((num / den : Nat) : ℚ) + ((num % den : Nat) : ℚ) / (den : ℚ))
        = -(((num % den : Nat) : ℚ) / (den : ℚ)) by ring, abs_neg,
      abs_of_nonneg hr0]
    exact hs
  · have hs : 1 / 2 ≤ ((num % den : Nat) : ℚ) / (den : ℚ) := by
      rw [le_div_iff₀ hd]
      have : ((den : Nat) : ℚ) ≤ ((2 * (num % den) : Nat) : ℚ) := by
        exact_mod_cast Nat.le_of_lt h2
      push_cast at this ⊢
      linarith
    rw [hnum]
    push_cast
    rw [show ((num / den : Nat) : ℚ) + 1
        - (((num / den : Nat) : ℚ) + ((num % den : Nat) : ℚ) / (den : ℚ))
        = 1 - ((num % den : Nat) : ℚ) / (den : ℚ) by ring,
      abs_of_nonneg (by linarith)]
    linarith
  · have heq : 2 * (num % den) = den := by omega
    have hs : ((num % den : Nat) : ℚ) / (den : ℚ) = 1 / 2 := by
      rw [div_eq_iff (ne_of_gt hd)]
      have : ((2 * (num % den) : Nat) : ℚ) = ((den : Nat) : ℚ) := by
        exact_mod_cast congrArg (fun n : Nat => (n : ℚ)) heq
      push_cast at this ⊢
      linarith
    rw [hnum, show ((num / den : Nat) : ℚ)
        - (((num / den : Nat) : ℚ) + ((num % den : Nat) : ℚ) / (den : ℚ))
        = -(((num % den : Nat) : ℚ) / (den : ℚ)) by ring, abs_neg,
      abs_of_nonneg hr0, hs]
  · have heq : 2 * (num % den) = den := by omega
    have hs : ((num % den : Nat) : ℚ) / (den : ℚ) = 1 / 2 := by
      rw [div_eq_iff (ne_of_gt hd)]
      have : ((2 * (num % den) : Nat) : ℚ) = ((den : Nat) : ℚ) := by
        exact_mod_cast congrArg (fun n : Nat => (n : ℚ)) heq
      push_cast at this ⊢
      linarith
    rw [hnum]
    push_cast
    rw [show ((num / den : Nat) : ℚ) + 1
        - (((num / den : Nat) : ℚ) + ((num % den : Nat) : ℚ) / (den : ℚ))
        = 1 - ((num % den : Nat) : ℚ) / (den : ℚ) by ring, hs]
    rw [abs_of_nonneg (by linarith)]
    linarith

theorem pct_close (votes total : Nat) (htotal : 0 < total) :
    |(pct votes total : ℚ) - (votes : ℚ) / (total : ℚ) * 100 * 10| ≤ 1 / 2 := by
  have h := roundHalfEven_close (votes * 100 * 10) total htotal
  have hcast : ((votes * 100 * 10 : Nat) : ℚ) / (total : ℚ)
      = (votes : ℚ) / (total : ℚ) * 100 * 10 := by
    push_cast
    ring
  rw [hcast] at h
  simpa [pct, htotal] using h

/-! ### Behaviour of the `/vote` route -/

theorem vote_already (parties : List String) (db : DB) (party? : Option String)
    (k : String) (h : has_voted db k = true) :
    vote parties db party? k = (VoteOutcome.alreadyVoted, db) := by
  simp [vote, voteCore, h]

theorem vote_success_eq (parties : List String) (db : DB) (o k : String)
    (h1 : has_voted db k = false) (h2 : parties.contains o = true) (h3 : o ≠ "") :
    vote parties db (some o) k
      = (VoteOutcome.success, ⟨db.votes ++ [(o, k)], db.voters ++ [k]⟩) := by
  have hb : ¬((o == "") = true) := by simp [h3]
  have ho : o ∈ parties := by simpa using h2
  have hk : k ∉ db.voters := by
    have hv : db.voters.contains k = false := h1
    simpa using hv
  simp [vote, voteCore, h1, hb, cast_vote, insertVote, insertVoter, ho, hk]

theorem vote_state (parties : List String) (db : DB) (party? : Option String)
    (ip : String) :
    (vote parties db party? ip).2 = db ∨
    (has_voted db ip = false ∧ ∃ p, party? = some p ∧
      (vote parties db party? ip).2 = ⟨db.votes ++ [(p, ip)], db.voters ++ [ip]⟩) := by
  cases hhv : has_voted db ip with
  | true => left; rw [vote_already parties db party? ip hhv]
  | false =>
    cases party? with
    | none => left; simp [vote, voteCore, hhv]
    | some p =>
      by_cases hb : (p == "") = true
      · left; simp [vote, voteCore, hhv, hb]
      · by_cases hc : parties.contains p = true
        · right
          refine ⟨rfl, p, rfl, ?_⟩
          rw [vote_success_eq parties db p ip hhv hc (by simpa using hb)]
        · left
          have hcm : p ∉ parties := by simpa using hc
          simp [vote, voteCore, hhv, hb, hcm]

/-! ### Claims -/

/-- Claim C1 (refuted by the code, confirming a bug): the claim says the
Vote-row insert and the VoterRecord-row insert happen in a single
transaction, so a cast that reports failure leaves no committed Vote row.
In the code each insert is its own committed transaction: at a ledger where
the voter key is already recorded (the loser of a duplicate race), the
voter-row insert fails and `cast_vote` raises, yet the new vote row stays
committed. -/
theorem cast_vote_commits_vote_row_despite_failure :
    (cast_vote ⟨[("বাংলাদেশ জাতীয়তাবাদী দল - বি.এন.পি", "203.0.113.7")], ["203.0.113.7"]⟩
        "বাংলাদেশ আওয়ামী লীগ" "203.0.113.7").1 = Except.error ()
    ∧ (cast_vote ⟨[("বাংলাদেশ জাতীয়তাবাদী দল - বি.এন.পি", "203.0.113.7")], ["203.0.113.7"]⟩
        "বাংলাদেশ আওয়ামী লীগ" "203.0.113.7").2.votes
      = [("বাংলাদেশ জাতীয়তাবাদী দল - বি.এন.পি", "203.0.113.7"),
         ("বাংলাদেশ আওয়ামী লীগ", "203.0.113.7")] :=
  ⟨rfl, rfl⟩

/-- Claim C2: after one accepted cast for `(o, k)`, every later `/vote`
request with key `k` — whatever option it names — answers AlreadyVoted and
leaves the ledger unchanged, and the only vote row carrying `k` is the one
for `o`. -/
theorem accepted_then_always_already_voted (parties : List String) (db : DB)
    (o k : String) (h1 : has_voted db k = false) (h2 : parties.contains o = true)
    (h3 : o ≠ "") (h4 : db.votes.filter (fun v => v.2 == k) = []) :
    (vote parties db (some o) k).1 = VoteOutcome.success
    ∧ (vote parties db (some o) k).2.votes.filter (fun v => v.2 == k) = [(o, k)]
    ∧ ∀ party?, vote parties (vote parties db (some o) k).2 party? k
        = (VoteOutcome.alreadyVoted, (vote parties db (some o) k).2) := by
  have hfe := vote_success_eq parties db o k h1 h2 h3
  refine ⟨by rw [hfe], ?_, ?_⟩
  · rw [hfe]
    simp [List.filter_append, h4]
  · intro party?
    apply vote_already
    rw [hfe]
    simp [has_voted, List.contains]

/-- Witness for C2 at a concrete input: a first cast from a fresh key is
accepted; a retry from the same key naming a different party is answered
AlreadyVoted and changes nothing. -/
theorem accepted_then_always_already_voted_witness :
    (vote PARTIES emptyDB (some "জাতীয় পার্টি") "198.51.100.1").1 = VoteOutcome.success
    ∧ (vote PARTIES emptyDB (some "জাতীয় পার্টি") "198.51.100.1").2.votes.filter
        (fun v => v.2 == "198.51.100.1") = [("জাতীয় পার্টি", "198.51.100.1")]
    ∧ vote PARTIES (vote PARTIES emptyDB (some "জাতীয় পার্টি") "198.51.100.1").2
        (some "বাংলাদেশ আওয়ামী লীগ") "198.51.100.1"
      = (VoteOutcome.alreadyVoted,
         (vote PARTIES emptyDB (some "জাতীয় পার্টি") "198.51.100.1").2) := by
  have h := accepted_then_always_already_voted PARTIES emptyDB "জাতীয় পার্টি"
    "198.51.100.1" rfl (by decide) (by decide) rfl
  exact ⟨h.1, h.2.1, h.2.2 (some "বাংলাদেশ আওয়ামী লীগ")⟩

/-- Claim C6: with configured options {A, B, C} and accepted casts A, A, B
from three distinct voter keys, the rankings are A (rank 1, 2 votes, 66.7%),
B (rank 2, 1 vote, 33.3%), C (rank 3, 0 votes, 0.0%), and the total is 3. -/
theorem example_three_casts_rankings :
    (vote ["A", "B", "C"] emptyDB (some "A") "k1").1 = VoteOutcome.success
    ∧ (vote ["A", "B", "C"] (vote ["A", "B", "C"] emptyDB (some "A") "k1").2
        (some "A") "k2").1 = VoteOutcome.success
    ∧ (vote ["A", "B", "C"]
        (vote ["A", "B", "C"] (vote ["A", "B", "C"] emptyDB (some "A") "k1").2
          (some "A") "k2").2 (some "B") "k3").1 = VoteOutcome.success
    ∧ get_rankings ["A", "B", "C"] exampleDB
        = ([⟨1, "A", 2, 667⟩, ⟨2, "B", 1, 333⟩, ⟨3, "C", 0, 0⟩], 3)
    ∧ get_total_votes exampleDB = 3 := by
  decide

/-- Claim C9: `/api/results` is a pure read — it leaves the ledger unchanged,
and a second call with no intervening write returns the identical output
(same entries, order, ranks, votes and percentages). -/
theorem api_results_read_idempotent (parties : List String) (db : DB) :
    (api_results parties db).2 = db
    ∧ (api_results parties (api_results parties db).2).1
        = (api_results parties db).1 :=
  ⟨rfl, rfl⟩

/-- Auxiliary invariant for sequential executions: the number of vote rows
carrying a key is 1 or 0 according to whether the key is in `voters`. -/
theorem seqReachable_vote_count (db : DB) (h : SeqReachable db) (k : String) :
    (db.votes.filter (fun v => v.2 == k)).length
      = (if db.voters.contains k then 1 else 0) := by
  induction h with
  | init => simp [emptyDB]
  | step db party? ip hdb ih =>
    rcases vote_state PARTIES db party? ip with heq | ⟨hhv, p, hp, heq⟩
    · rw [heq]
      exact ih
    · rw [heq]
      by_cases hk : ip = k
      · subst hk
        have hv : db.voters.contains ip = false := hhv
        have hmem : (db.voters ++ [ip]).contains ip = true := by
          simp [List.contains]
        rw [hv] at ih
        simp only [Bool.false_eq_true, if_false] at ih
        simp [List.filter_append, hmem, ih]
      · have hne : ¬(k = ip) := fun hkk => hk hkk.symm
        have hfk : (((p, ip) : String × String).2 == k) = false := by
          simpa using hk
        have hcons : (db.voters ++ [ip]).contains k = db.voters.contains k := by
          simp [List.contains, List.mem_append, hne]
        simp only [List.filter_append, List.length_append, hcons]
        have hnil : List.filter (fun v => v.2 == k) [(p, ip)] = [] := by
          simp [hfk]
        rw [hnil]
        simpa using ih

/-- Claim C3 counterexample: under the concurrency model the spec demands
(each SQL statement atomic, requests interleaved), the duplicate-key race
interleaving reaches a ledger where the key is in `voters` yet TWO vote rows
carry it — the "exactly one vote per recorded voter" invariant fails. -/
theorem race_reachable_breaks_single_vote_invariant :
    Reachable (raceCast emptyDB "বাংলাদেশ জাতীয়তাবাদী দল - বি.এন.পি"
        "বাংলাদেশ আওয়ামী লীগ" "198.51.100.23")
    ∧ (raceCast emptyDB "বাংলাদেশ জাতীয়তাবাদী দল - বি.এন.পি"
        "বাংলাদেশ আওয়ামী লীগ" "198.51.100.23").voters.contains "198.51.100.23" = true
    ∧ ((raceCast emptyDB "বাংলাদেশ জাতীয়তাবাদী দল - বি.এন.পি"
        "বাংলাদেশ আওয়ামী লীগ" "198.51.100.23").votes.filter
          (fun v => v.2 == "198.51.100.23")).length = 2 := by
  refine ⟨Reachable.race emptyDB _ _ _ Reachable.init rfl (by decide) (by decide)
    (by decide) (by decide), by decide, by decide⟩

/-- Claim C3 as amended: in every ledger state reachable by sequential
(non-overlapping) `/vote` requests from the fresh database, a key present in
`voters` is carried by exactly one vote row. -/
theorem seq_reachable_one_vote_per_voter (db : DB) (h : SeqReachable db)
    (k : String) (hk : db.voters.contains k = true) :
    (db.votes.filter (fun v => v.2 == k)).length = 1 := by
  rw [seqReachable_vote_count db h k, hk]
  rfl

/-- Witness for the amended C3 at a concrete state: after one accepted cast
the voter key is recorded and exactly one vote row carries it. -/
theorem seq_reachable_one_vote_per_voter_witness :
    SeqReachable (vote PARTIES emptyDB (some "জাতীয় পার্টি") "198.51.100.1").2
    ∧ (vote PARTIES emptyDB (some "জাতীয় পার্টি") "198.51.100.1").2.voters.contains
        "198.51.100.1" = true
    ∧ ((vote PARTIES emptyDB (some "জাতীয় পার্টি") "198.51.100.1").2.votes.filter
        (fun v => v.2 == "198.51.100.1")).length = 1 := by
  have hseq : SeqReachable (vote PARTIES emptyDB (some "জাতীয় পার্টি") "198.51.100.1").2 :=
    SeqReachable.step emptyDB (some "জাতীয় পার্টি") "198.51.100.1" SeqReachable.init
  exact ⟨hseq, by decide,
    seq_reachable_one_vote_per_voter _ hseq "198.51.100.1" (by decide)⟩

/-- Claim C7 counterexample: `has_voted` DOES degrade a storage failure to
`False` — the bare `except` branch maps a raised error to "has not voted". -/
theorem has_voted_degrades_storage_failure :
    has_voted_result (Except.error ()) = false :=
  rfl

/-- Claim C7 as amended: a storage failure inside `has_voted` is swallowed
and reported as `False` (not voted); a storage failure raised during the
cast itself is caught by the `/vote` route and answered with the generic
failure response — never reported as success. -/
theorem storage_failure_not_success (parties : List String) (db : DB)
    (p ip : String) (hp : parties.contains p = true) (hne : p ≠ "")
    (hdup : db.voters.contains ip = true) :
    has_voted_result (Except.error ()) = false
    ∧ (vote_degradedRead parties db (some p) ip).1 = VoteOutcome.storageError
    ∧ (vote_degradedRead parties db (some p) ip).1 ≠ VoteOutcome.success := by
  have hb : ¬((p == "") = true) := by simp [hne]
  have hmem : p ∈ parties := by simpa using hp
  have hdv : ip ∈ db.voters := by simpa using hdup
  have hout : (vote_degradedRead parties db (some p) ip).1 = VoteOutcome.storageError := by
    simp [vote_degradedRead, voteCore, has_voted_result, hb, hmem, cast_vote,
      insertVote, insertVoter, hdv]
  refine ⟨rfl, hout, ?_⟩
  rw [hout]
  decide

/-- Witness for the amended C7: against a ledger that already records the
voter key, a cast whose `has_voted` read failed ends in the generic failure
response. -/
theorem storage_failure_not_success_witness :
    PARTIES.contains "বাংলাদেশ আওয়ামী লীগ" = true
    ∧ (vote_degradedRead PARTIES ⟨[("জাতীয় পার্টি", "198.51.100.7")], ["198.51.100.7"]⟩
        (some "বাংলাদেশ আওয়ামী লীগ") "198.51.100.7").1 = VoteOutcome.storageError := by
  refine ⟨by decide, ?_⟩
  exact (storage_failure_not_success PARTIES
    ⟨[("জাতীয় পার্টি", "198.51.100.7")], ["198.51.100.7"]⟩
    "বাংলাদেশ আওয়ামী লীগ" "198.51.100.7" (by decide) (by decide) (by decide)).2.1

/-- Claim C8 counterexample: a cast naming an option outside the configured
set does NOT always answer InvalidOption — when the client has already
voted, the `has_voted` guard runs first and the route answers AlreadyVoted. -/
theorem invalid_option_after_voted_not_invalid_option :
    ¬("Z" ∈ PARTIES)
    ∧ (vote PARTIES ⟨[("জাতীয় পার্টি", "192.0.2.9")], ["192.0.2.9"]⟩
        (some "Z") "192.0.2.9").1 = VoteOutcome.alreadyVoted
    ∧ VoteOutcome.alreadyVoted ≠ VoteOutcome.invalidOption :=
  ⟨by decide, by decide, by decide⟩

/-- Claim C8 as amended: a cast naming an option outside the configured set
never mutates the ledger, and it answers InvalidOption whenever the client
has not already voted and the option string is non-empty (an already-voted
client gets AlreadyVoted; an empty option gets the choose-a-party error). -/
theorem invalid_option_rejected_no_mutation (parties : List String) (db : DB)
    (p ip : String) (hp : parties.contains p = false) :
    (vote parties db (some p) ip).2 = db
    ∧ (has_voted db ip = false → p ≠ "" →
        (vote parties db (some p) ip).1 = VoteOutcome.invalidOption) := by
  have hpm : p ∉ parties := by simpa using hp
  constructor
  · cases hhv : has_voted db ip with
    | true => rw [vote_already parties db (some p) ip hhv]
    | false =>
      by_cases hb : (p == "") = true
      · simp [vote, voteCore, hhv, hb]
      · simp [vote, voteCore, hhv, hb, hpm]
  · intro h1 h2
    have hb : ¬((p == "") = true) := by simp [h2]
    simp [vote, voteCore, h1, hb, hpm]

/-- Witness for the amended C8: a fresh client casting for the unknown
option "Z" is answered InvalidOption and the ledger stays empty. -/
theorem invalid_option_rejected_no_mutation_witness :
    (vote PARTIES emptyDB (some "Z") "192.0.2.9").2 = emptyDB
    ∧ (vote PARTIES emptyDB (some "Z") "192.0.2.9").1 = VoteOutcome.invalidOption := by
  have h := invalid_option_rejected_no_mutation PARTIES emptyDB "Z" "192.0.2.9" (by decide)
  exact ⟨h.1, h.2 rfl (by decide)⟩

/-- Claim C4: the rankings carry exactly one entry per configured option —
as a multiset the `(party, votes)` pairs of the output are exactly the
per-option counts, options with no matching vote row included with count 0 —
and with a zero total every percentage is 0. -/
theorem rankings_cover_every_option (parties : List String) (db : DB) :
    ((get_rankings parties db).1.map (fun e => (e.party, e.votes))).Perm
      (get_vote_counts parties db)
    ∧ ((get_rankings parties db).2 = 0 →
        ∀ e ∈ (get_rankings parties db).1, e.percentageTenths = 0) := by
  constructor
  · show ((buildRankings (get_total_votes db) 1
        (sortDesc (get_vote_counts parties db))).map
          (fun e => (e.party, e.votes))).Perm (get_vote_counts parties db)
    rw [buildRankings_map_pair]
    exact sortDesc_perm _
  · intro h0 e he
    have hp := buildRankings_pct (get_total_votes db)
      (sortDesc (get_vote_counts parties db)) 1 e he
    rw [hp]
    have h0' : get_total_votes db = 0 := h0
    simp [pct, h0']

/-- Witness for C4: with one configured option and an empty ledger the
output is exactly the one zero-count pair, and its percentage is 0. -/
theorem rankings_cover_every_option_witness :
    ((get_rankings ["A"] emptyDB).1.map (fun e => (e.party, e.votes))).Perm
      (get_vote_counts ["A"] emptyDB)
    ∧ (⟨1, "A", 0, 0⟩ : RankingEntry).percentageTenths = 0 := by
  have h := rankings_cover_every_option ["A"] emptyDB
  exact ⟨h.1, h.2 rfl ⟨1, "A", 0, 0⟩ (by decide)⟩

/-- Claim C5: ranks are assigned 1..N in output order, the counts are
descending along the output, and each entry's percentage is
`votes / total_votes * 100` rounded to the nearest tenth (within half a
tenth of the exact value), or 0 when the total is 0. -/
theorem rankings_ranked_sorted_percentages (parties : List String) (db : DB) :
    (∀ (j : Nat) (hj : j < (get_rankings parties db).1.length),
        ((get_rankings parties db).1.get ⟨j, hj⟩).rank = j + 1)
    ∧ (get_rankings parties db).1.Pairwise (fun a b => b.votes ≤ a.votes)
    ∧ (∀ e ∈ (get_rankings parties db).1,
        (0 < (get_rankings parties db).2 →
          |(e.percentageTenths : ℚ)
            - (e.votes : ℚ) / ((get_rankings parties db).2 : ℚ) * 100 * 10| ≤ 1 / 2)
        ∧ ((get_rankings parties db).2 = 0 → e.percentageTenths = 0)) := by
  refine ⟨?_, ?_, ?_⟩
  · intro j hj
    show ((buildRankings (get_total_votes db) 1
        (sortDesc (get_vote_counts parties db))).get ⟨j, hj⟩).rank = j + 1
    rw [buildRankings_rank]
    omega
  · have hs := sortDesc_sorted (get_vote_counts parties db)
    rw [← buildRankings_map_pair (get_total_votes db) 1
      (sortDesc (get_vote_counts parties db))] at hs
    exact List.pairwise_map.mp hs
  · intro e he
    have hp := buildRankings_pct (get_total_votes db)
      (sortDesc (get_vote_counts parties db)) 1 e he
    constructor
    · intro hpos
      have htv : (get_rankings parties db).2 = get_total_votes db := rfl
      rw [htv] at hpos ⊢
      rw [hp]
      have hb := pct_close e.votes (get_total_votes db) hpos
      have hpct : pct e.votes (get_total_votes db)
          = roundHalfEven (e.votes * 100 * 10) (get_total_votes db) := by
        simp [pct, hpos]
      rw [hpct] at hb ⊢
      exact hb
    · intro h0
      rw [hp]
      simp [pct, show get_total_votes db = 0 from h0]

/-- Witness for C5 at a concrete ledger (one vote for B, none for A): the
first entry has rank 1, counts descend along the output, and the winning
entry's percentage is within half a tenth of the exact value. -/
theorem rankings_ranked_sorted_percentages_witness :
    ((get_rankings ["A", "B"] ⟨[("B", "k")], ["k"]⟩).1.get ⟨0, by decide⟩).rank = 0 + 1
    ∧ (get_rankings ["A", "B"] ⟨[("B", "k")], ["k"]⟩).1.Pairwise
        (fun a b => b.votes ≤ a.votes)
    ∧ |(((⟨1, "B", 1, 1000⟩ : RankingEntry).percentageTenths : Nat) : ℚ)
        - ((⟨1, "B", 1, 1000⟩ : RankingEntry).votes : ℚ)
          / (((get_rankings ["A", "B"] ⟨[("B", "k")], ["k"]⟩).2 : Nat) : ℚ) * 100 * 10|
      ≤ 1 / 2 := by
  have h := rankings_ranked_sorted_percentages ["A", "B"] ⟨[("B", "k")], ["k"]⟩
  refine ⟨h.1 0 (by decide), h.2.1, ?_⟩
  exact (h.2.2 ⟨1, "B", 1, 1000⟩ (by decide)).1 (by decide)

/-- Claim C10 (implicit tie-break): when two configured options have equal
counts, the one declared earlier in the option list appears earlier in the
rankings — Python's sort is stable, so ties keep declaration order. -/
theorem rankings_tie_declaration_order (parties : List String) (db : DB)
    (p q : String) (hbef : Before p q parties)
    (hc : countVotes db p = countVotes db q) :
    Before p q ((get_rankings parties db).1.map (fun e => e.party)) := by
  have h1 : Before (p, countVotes db p) (q, countVotes db q)
      (get_vote_counts parties db) :=
    before_map (fun s => (s, countVotes db s)) hbef
  have h2 := pair_sublist_of_before h1
  have h3 : List.Sublist [(p, countVotes db p), (q, countVotes db q)]
      (sortDesc (get_vote_counts parties db)) :=
    sortDesc_stable_pair _ _ _ h2 (Nat.le_of_eq hc.symm)
  have h4 := before_of_pair_sublist h3
  have h5 := before_map (fun s : String × Nat => s.1) h4
  have hmap : ((buildRankings (get_total_votes db) 1
      (sortDesc (get_vote_counts parties db))).map (fun e => e.party))
      = (sortDesc (get_vote_counts parties db)).map (fun s => s.1) := by
    conv_rhs => rw [← buildRankings_map_pair (get_total_votes db) 1
      (sortDesc (get_vote_counts parties db))]
    rw [List.map_map]
    rfl
  show Before p q ((buildRankings (get_total_votes db) 1
      (sortDesc (get_vote_counts parties db))).map (fun e => e.party))
  rw [hmap]
  exact h5

/-- Witness for C10: with an empty ledger (all counts equal) the two
configured options appear in declaration order. -/
theorem rankings_tie_declaration_order_witness :
    Before "A" "B" (["A", "B"] : List String)
    ∧ countVotes emptyDB "A" = countVotes emptyDB "B"
    ∧ Before "A" "B" ((get_rankings ["A", "B"] emptyDB).1.map (fun e => e.party)) := by
  refine ⟨⟨[], [], [], rfl⟩, rfl, ?_⟩
  exact rankings_tie_declaration_order ["A", "B"] emptyDB "A" "B"
    ⟨[], [], [], rfl⟩ rfl

end VoteApp
